import Mathlib

/-!
# Verification of the proglog segmented storage engine

Shallow embedding of the core of the repository (store, index, segment, log)
and proofs of the specified properties.

Modelling conventions:
* Bytes are natural numbers; byte buffers and files are `List Nat`.
* Go `uint64`/`uint32` values are `Nat`.  Wrap-around is modelled explicitly
  (`% 2 ^ 32`, `u64sub`, `toInt64`) at the places where the Go code performs a
  narrowing or a subtraction that can actually underflow in an execution
  (the `uint32` casts of relative offsets, the `int64(off - baseOffset)`
  reinterpretation in `segment.Read`, and the `(size/entWidth) - 1` sentinel
  computation in `index.Read`).  Counters that only ever grow by small
  increments (`store.size`, `segment.nextOffset`) are modelled as unbounded
  naturals; their `uint64` overflow is unreachable for any physical file.
* Fallible operations return `Except GoErr`; stateful fallible operations
  return a pair of the result and the post-state, mirroring Go methods that
  mutate their receiver and return `(value, error)`.
* Underlying file-write failures (the buffered writer inside `store.Append`)
  are injected through a `WriteEnv` value: the Go error returned by
  `binary.Write` resp. `buf.Write` fires iff the corresponding flag is set.
* `proto.Marshal`/`proto.Unmarshal` live outside the core (collaborator code
  not present under the repository's log package); they are modelled from the
  spec as a concrete deterministic, reversible serialization.
-/

/-- Errors surfaced by the embedded code.  `ioEOF` is Go's `io.EOF` (returned
by `index.Read` both for an empty index and for an out-of-range entry, and by
`index.Write` when the map is full); `outOfRange n` is the
`fmt.Errorf("offset out of range: %d", n)` error built in `Log.Read` — the
constructor carries the offending offset, modelling the message contents;
`ioErr` is a generic filesystem/buffered-writer failure; `protoErr` is a
protobuf unmarshalling failure. -/
inductive GoErr where
  | ioEOF : GoErr
  | ioErr : GoErr
  | outOfRange : Nat → GoErr
  | protoErr : GoErr
deriving DecidableEq, Repr

/-- Injected failures for the two buffered writes inside `store.Append`:
`binary.Write` of the length prefix and `buf.Write` of the payload. -/
structure WriteEnv where
  failLenWrite : Bool
  failDataWrite : Bool
deriving DecidableEq, Repr

deriving instance DecidableEq for Except

/-- The failure-free environment (every underlying write succeeds). -/
def envOk : WriteEnv := ⟨false, false⟩

/-- Big-endian decoding of a byte list (`enc.Uint64` / `enc.Uint32`). -/
def decBE (l : List Nat) : Nat :=
  l.foldl (fun a b => a * 256 + b) 0

/-- Big-endian 8-byte encoding of a `uint64` (`binary.Write(s.buf, enc, ...)`
and `enc.PutUint64`). -/
def encU64 (n : Nat) : List Nat :=
  [n / 2 ^ 56 % 256, n / 2 ^ 48 % 256, n / 2 ^ 40 % 256, n / 2 ^ 32 % 256,
   n / 2 ^ 24 % 256, n / 2 ^ 16 % 256, n / 2 ^ 8 % 256, n % 256]

/-- Big-endian 4-byte encoding of a `uint32` (`enc.PutUint32`). -/
def encU32 (n : Nat) : List Nat :=
  [n / 2 ^ 24 % 256, n / 2 ^ 16 % 256, n / 2 ^ 8 % 256, n % 256]

/-- Wrapping `uint64` subtraction with wrap-around, for operands already reduced
modulo `2 ^ 64`. -/
def u64sub (a b : Nat) : Nat :=
  (a % 2 ^ 64 + (2 ^ 64 - b % 2 ^ 64)) % 2 ^ 64

/-- Reinterpret a `uint64` bit pattern as Go's `int64`. -/
def toInt64 (n : Nat) : Int :=
  if n % 2 ^ 64 < 2 ^ 63 then (n % 2 ^ 64 : Nat) else (n % 2 ^ 64 : Nat) - 2 ^ 64

/-- Contiguous slice `(l.drop s).take n` of a byte buffer: the bytes at
positions `[s, s+n)`. -/
def byteSlice (l : List Nat) (s n : Nat) : List Nat :=
  (l.drop s).take n

/-- Overwrite the bytes of `l` at positions `[s, s + v.length)` with `v`
(an in-bounds mmap write). -/
def setRange (l : List Nat) (s : Nat) (v : List Nat) : List Nat :=
  l.take s ++ v ++ l.drop (s + v.length)

/-- The record contract: an assignable 64-bit offset plus an opaque payload
(`api.Record` with its `Offset` and `Value` fields). -/
structure Record where
  offset : Nat
  value : List Nat
deriving DecidableEq, Repr

/-- Modelled from the spec: `proto.Marshal` is collaborator code absent from
the core package; the spec only requires a deterministic, reversible byte
serialization of a record exposing its 64-bit offset, so we fix the offset as
an 8-byte big-endian prefix followed by the raw payload. -/
def protoMarshal (r : Record) : List Nat :=
  encU64 r.offset ++ r.value

/-- Modelled from the spec: inverse of `protoMarshal` (`proto.Unmarshal`);
fails on a buffer too short to carry the offset field. -/
def protoUnmarshal (bs : List Nat) : Option Record :=
  if 8 ≤ bs.length then some ⟨decBE (bs.take 8), bs.drop 8⟩ else none

/-- The store: a buffered append-only data file.  `data` is the byte content
(file plus buffered bytes — reads flush first, so within one process the two
are indistinguishable); `size` is the store's size counter. -/
structure Store where
  data : List Nat
  size : Nat
deriving DecidableEq, Repr

/-- Go `store.Append`: capture `pos := size`, write the 8-byte big-endian length
prefix then the payload to the buffered writer, add `8 + len` to `size` and
return `(8 + len, pos)`.  Either underlying write may fail (injected via
`env`); on failure the method returns before touching `size` (any bytes the
failed call may have left in the buffered writer are not modelled — the
properties below concern the `size` counter and successfully framed data). -/
def Store.Append (st : Store) (toPersist : List Nat) (env : WriteEnv) :
    Except GoErr (Nat × Nat) × Store :=
  let pos := st.size
  if env.failLenWrite then (.error .ioErr, st)
  else if env.failDataWrite then (.error .ioErr, st)
  else
    let numBytes := toPersist.length + 8
    (.ok (numBytes, pos),
     { st with data := st.data ++ encU64 toPersist.length ++ toPersist,
               size := st.size + numBytes })

/-- Go `store.Read`: flush, read the 8-byte length prefix at `pos`, then read
that many payload bytes at `pos + 8`.  A positional read past the end of the
file fails (`io.EOF` wrapped by `File.ReadAt`, modelled as `ioErr`). -/
def Store.Read (st : Store) (pos : Nat) : Except GoErr (List Nat) :=
  if st.data.length < pos + 8 then .error .ioErr
  else
    let len := decBE (byteSlice st.data pos 8)
    if st.data.length < pos + 8 + len then .error .ioErr
    else .ok (byteSlice st.data (pos + 8) len)

/-- The index: the memory-mapped region (fixed length, the file having been
grown to `MaxIndexBytes` at open time) and the logical size counter. -/
structure Index where
  mmap : List Nat
  size : Nat
deriving DecidableEq, Repr

/-- Go `index.Read`: `io.EOF` on an empty index; the sentinel `-1` selects entry
`size/12 - 1` (a `uint64` subtraction narrowed to `uint32`, faithful to
`uint32((i.size / entWidth) - 1)`); a non-sentinel argument is narrowed to
`uint32`; `io.EOF` when the selected entry does not lie below `size`;
otherwise decode the 4-byte relative offset and the 8-byte position. -/
def Index.Read (i : Index) (inp : Int) : Except GoErr (Nat × Nat) :=
  if i.size = 0 then .error .ioEOF
  else
    let out : Nat :=
      if inp = -1 then u64sub (i.size / 12) 1 % 2 ^ 32
      else (inp % 2 ^ 32).toNat
    let pos := out * 12
    if i.size < pos + 12 then .error .ioEOF
    else .ok (decBE (byteSlice i.mmap pos 4), decBE (byteSlice i.mmap (pos + 4) 8))

/-- Go `index.Write`: fail with `io.EOF` when the mapped region cannot hold one
more entry; otherwise put the 4-byte relative offset at `[size, size+4)` and
the 8-byte position at `[size+4, size+12)` (one contiguous 12-byte write) and
advance `size` by 12. -/
def Index.Write (i : Index) (off pos : Nat) : Except GoErr Index :=
  if i.mmap.length < i.size + 12 then .error .ioEOF
  else .ok { i with mmap := setRange i.mmap i.size (encU32 off ++ encU64 pos),
                    size := i.size + 12 }

/-- Configuration: `Segment.MaxStoreBytes`, `Segment.MaxIndexBytes`,
`Segment.InitialOffset`. -/
structure Config where
  maxStoreBytes : Nat
  maxIndexBytes : Nat
  initialOffset : Nat
deriving DecidableEq, Repr

/-- The defaulting performed by `NewLog`: `MaxStoreBytes` and `MaxIndexBytes`
fall back to 1024 when zero (the initial offset keeps its zero value). -/
def Config.withDefaults (c : Config) : Config :=
  { c with
    maxStoreBytes := if c.maxStoreBytes = 0 then 1024 else c.maxStoreBytes,
    maxIndexBytes := if c.maxIndexBytes = 0 then 1024 else c.maxIndexBytes }

/-- A segment: its store, its index, the two absolute offsets and the
configuration snapshot. -/
structure Segment where
  store : Store
  index : Index
  baseOffset : Nat
  nextOffset : Nat
  config : Config
deriving DecidableEq, Repr

/-- Go `newSegment dir baseOffset c`, applied to the current contents of the two
backing files (`storeData`, `indexData`): the store records the file's size;
the index file is grown (or shrunk) to `MaxIndexBytes` by `os.Truncate` and
memory-mapped whole, while `size` keeps the pre-truncation length;
`nextOffset` is initialised from the index's last entry — `baseOffset` when
that read fails (fresh segment), `baseOffset + relOff + 1` otherwise. -/
def Segment.make (c : Config) (base : Nat) (storeData indexData : List Nat) :
    Segment :=
  let st : Store := ⟨storeData, storeData.length⟩
  let mm :=
    (indexData ++ List.replicate (c.maxIndexBytes - indexData.length) 0).take
      c.maxIndexBytes
  let idx : Index := ⟨mm, indexData.length⟩
  let next :=
    match idx.Read (-1) with
    | .error _ => base
    | .ok (off, _) => base + off + 1
  ⟨st, idx, base, next, c⟩

/-- Go `segment.IsMaxed`: the store or the index has reached its configured
limit. -/
def Segment.IsMaxed (s : Segment) : Bool :=
  (s.config.maxStoreBytes ≤ s.store.size) || (s.config.maxIndexBytes ≤ s.index.size)

/-- Go `segment.Append`: stamp the record with `nextOffset`, marshal it, append
the bytes to the store, write `(relOff, pos)` to the index (the relative
offset being the `uint32` narrowing of the `uint64` difference
`nextOffset - baseOffset`), bump `nextOffset` and return the stamped offset.
The Go code turns a store-append failure into `return 0, nil`, dropping the
error; an index-write failure is propagated after the store was already
extended.  (The `proto.Marshal` error branch is dead here because the
modelled serialization is total.) -/
def Segment.Append (s : Segment) (r : Record) (env : WriteEnv) :
    Except GoErr Nat × Segment :=
  let currOffset := s.nextOffset
  let bytes := protoMarshal { r with offset := currOffset }
  let (res, st') := s.store.Append bytes env
  match res with
  | .error _ => (.ok 0, { s with store := st' })
  | .ok (_, pos) =>
    let relativeOffset := u64sub s.nextOffset s.baseOffset % 2 ^ 32
    match s.index.Write relativeOffset pos with
    | .error e => (.error e, { s with store := st' })
    | .ok idx' =>
      (.ok currOffset,
       { s with store := st', index := idx', nextOffset := s.nextOffset + 1 })

/-- Go `segment.Read`: compute `int64(off - s.baseOffset)` (a wrapping `uint64`
subtraction reinterpreted as `int64`), look the entry up in the index, read
the frame from the store at the recorded position, and unmarshal. -/
def Segment.Read (s : Segment) (off : Nat) : Except GoErr Record :=
  let relativeOffset := toInt64 (u64sub off s.baseOffset)
  match s.index.Read relativeOffset with
  | .error e => .error e
  | .ok (_, pos) =>
    match s.store.Read pos with
    | .error e => .error e
    | .ok bytes =>
      match protoUnmarshal bytes with
      | none => .error .protoErr
      | some record => .ok record

/-- The log: its configuration, the ordered segment list, and the
`activeSegment` pointer.  In Go the pointer aliases an element of the slice;
here the active segment is stored by value and every operation that mutates
it also rewrites the last slice element (the alias target whenever the list
is non-empty, which holds in every reachable state with a live active
segment). -/
structure LogS where
  config : Config
  segments : List Segment
  active : Segment
deriving DecidableEq, Repr

/-- Go `NewLog` on an empty directory: apply the config defaults, then `setup`
finds no files and bootstraps one fresh segment at
`config.Segment.InitialOffset`, which becomes active. -/
def LogS.newEmptyDir (c : Config) : LogS :=
  let c' := c.withDefaults
  let seg := Segment.make c' c'.initialOffset [] []
  ⟨c', [seg], seg⟩

/-- Go `Log.Append`: delegate to the active segment (the mutation is mirrored
into the last slice element); on success, if the active segment is now maxed,
roll by installing a fresh segment at `offset + 1` as the new active tail. -/
def LogS.Append (lg : LogS) (r : Record) (env : WriteEnv) :
    Except GoErr Nat × LogS :=
  let (res, act') := lg.active.Append r env
  let segs' := if lg.segments.isEmpty then lg.segments
               else lg.segments.dropLast ++ [act']
  match res with
  | .error e => (.error e, { lg with active := act', segments := segs' })
  | .ok offset =>
    let lg' : LogS := { lg with active := act', segments := segs' }
    if act'.IsMaxed then
      let seg := Segment.make lg.config (offset + 1) [] []
      (.ok offset, { lg' with segments := lg'.segments ++ [seg], active := seg })
    else (.ok offset, lg')

/-- The segment-location loop of `Log.Read`: scan the slice and keep the last
segment with `baseOffset ≤ offset < nextOffset` (`s` starts out nil). -/
def findSegment (segs : List Segment) (off : Nat) : Option Segment :=
  segs.foldl
    (fun acc seg =>
      if seg.baseOffset ≤ off ∧ off < seg.nextOffset then some seg else acc)
    none

/-- Go `Log.Read`: locate the covering segment; fail with the out-of-range error
carrying the offset when none covers it (the second disjunct of the Go guard,
`s.nextOffset <= offset`, is kept although the loop already guarantees it is
false); otherwise delegate to the segment. -/
def LogS.Read (lg : LogS) (off : Nat) : Except GoErr Record :=
  match findSegment lg.segments off with
  | none => .error (.outOfRange off)
  | some s =>
    if s.nextOffset ≤ off then .error (.outOfRange off) else s.Read off

/-- Go `Log.Truncate lowest`: remove (via `segment.Remove`, whose file-system
work is not modelled) every segment with `nextOffset ≤ lowest + 1` and keep
the rest in order; the `activeSegment` pointer is not touched. -/
def LogS.Truncate (lg : LogS) (lowest : Nat) : LogS :=
  { lg with segments := lg.segments.filter (fun s => decide (lowest + 1 < s.nextOffset)) }

/-- Go `Log.HighestOffset`: the last segment's `nextOffset`, minus one unless it
is zero.  Go indexes `segments[len-1]` and would panic on an empty slice;
that case is `none`. -/
def LogS.HighestOffset (lg : LogS) : Option Nat :=
  match lg.segments.getLast? with
  | none => none
  | some s => if s.nextOffset = 0 then some 0 else some (s.nextOffset - 1)

/-- Go `Log.LowestOffset`: the first segment's `baseOffset` (`none` standing for
the panic on an empty slice). -/
def LogS.LowestOffset (lg : LogS) : Option Nat :=
  match lg.segments.head? with
  | none => none
  | some s => some s.baseOffset

/-- Drive a sequence of `Log.Append` calls in the failure-free environment,
stopping at the first error; returns the assigned offsets and the final
state. -/
def LogS.appendAll (lg : LogS) (rs : List Record) :
    Option (List Nat × LogS) :=
  match rs with
  | [] => some ([], lg)
  | r :: rest =>
    match lg.Append r envOk with
    | (.error _, _) => none
    | (.ok o, lg') =>
      match lg'.appendAll rest with
      | none => none
      | some (os, lg'') => some (o :: os, lg'')

/-- The offsets assigned by a sequence of appends (when all succeed). -/
def LogS.appendOffsets (lg : LogS) (rs : List Record) : Option (List Nat) :=
  (lg.appendAll rs).map Prod.fst

/-- The claim-C4 invariant: the `activeSegment` pointer refers to the last
element of the segment slice. -/
def activeIsLast (lg : LogS) : Prop :=
  lg.segments.getLast? = some lg.active

instance (lg : LogS) : Decidable (activeIsLast lg) := by
  unfold activeIsLast; infer_instance

/-- Well-formedness of a segment, as established by the code for every
segment it builds: the store's size counter matches its contents, the index
holds exactly `nextOffset - baseOffset` entries, the offsets are ordered, the
entry count fits `uint32`, and the absolute quantities fit `uint64`. -/
def SegWF (s : Segment) : Prop :=
  s.store.size = s.store.data.length ∧
  s.index.size = 12 * (s.nextOffset - s.baseOffset) ∧
  s.baseOffset ≤ s.nextOffset ∧
  s.nextOffset - s.baseOffset < 2 ^ 32 ∧
  s.nextOffset < 2 ^ 64 ∧
  s.store.data.length < 2 ^ 64

instance (s : Segment) : Decidable (SegWF s) := by
  unfold SegWF; infer_instance

/-- The decoded 12-byte entry `k` of an index: the 4-byte big-endian relative
offset and the 8-byte big-endian store position. -/
def entryPair (i : Index) (k : Nat) : Nat × Nat :=
  (decBE (byteSlice i.mmap (k * 12) 4), decBE (byteSlice i.mmap (k * 12 + 4) 8))

/-- A small configuration for concrete test states (no defaulting kicks in). -/
def cfgT : Config := ⟨32, 24, 0⟩

/-- A concrete retired segment covering offsets `[0, 3)`. -/
def segA : Segment := ⟨⟨[], 0⟩, ⟨[], 0⟩, 0, 3, cfgT⟩

/-- A concrete active segment covering offsets `[3, 6)`. -/
def segB : Segment := ⟨⟨[], 0⟩, ⟨[], 0⟩, 3, 6, cfgT⟩

/-- A concrete two-segment log with `segB` active. -/
def lgT : LogS := ⟨cfgT, [segA, segB], segB⟩

/-- A concrete index holding one valid entry with room for two more. -/
def idxA : Index := ⟨List.replicate 36 0, 12⟩

/-- State of `idxA` after writing the entry `(7, 9)` at its logical end. -/
def idxA' : Index := ⟨setRange (List.replicate 36 0) 12 (encU32 7 ++ encU64 9), 24⟩

/-- A concrete index holding two valid entries. -/
def idxW : Index := ⟨List.replicate 36 0, 24⟩

theorem decBE_encU64 (n : Nat) : decBE (encU64 n) = n % 2 ^ 64 := by
  simp [decBE, encU64, List.foldl]
  omega

theorem decBE_encU32 (n : Nat) : decBE (encU32 n) = n % 2 ^ 32 := by
  simp [decBE, encU32, List.foldl]
  omega

theorem encU64_length (n : Nat) : (encU64 n).length = 8 := rfl

theorem encU32_length (n : Nat) : (encU32 n).length = 4 := rfl

theorem u64sub_eq {a b : Nat} (hba : b ≤ a) (ha : a < 2 ^ 64) :
    u64sub a b = a - b := by
  unfold u64sub
  have hb : b < 2 ^ 64 := lt_of_le_of_lt hba ha
  rw [Nat.mod_eq_of_lt ha, Nat.mod_eq_of_lt hb]
  omega

theorem toInt64_small {n : Nat} (h : n < 2 ^ 63) : toInt64 n = n := by
  unfold toInt64
  have h64 : n < 2 ^ 64 := by omega
  rw [Nat.mod_eq_of_lt h64, if_pos h]

theorem protoMarshal_length (r : Record) :
    (protoMarshal r).length = 8 + r.value.length := by
  simp [protoMarshal, encU64]
  omega

theorem protoUnmarshal_marshal (r : Record) (h : r.offset < 2 ^ 64) :
    protoUnmarshal (protoMarshal r) = some r := by
  unfold protoUnmarshal protoMarshal
  rw [if_pos (by simp [encU64])]
  have ht : (encU64 r.offset ++ r.value).take 8 = encU64 r.offset :=
    List.take_left' (encU64_length r.offset)
  have hd : (encU64 r.offset ++ r.value).drop 8 = r.value :=
    List.drop_left' (encU64_length r.offset)
  rw [ht, hd, decBE_encU64, Nat.mod_eq_of_lt h]

theorem byteSlice_take {l : List Nat} {a n s : Nat} (h : a + n ≤ s) :
    byteSlice (l.take s) a n = byteSlice l a n := by
  unfold byteSlice
  rw [List.drop_take]
  rw [List.take_take]
  congr 1
  omega

theorem take_setRange {l v : List Nat} {s : Nat} (h : s ≤ l.length) :
    (setRange l s v).take s = l.take s := by
  unfold setRange
  rw [List.append_assoc, List.take_left' (by simp; omega)]

theorem drop_setRange {l v : List Nat} {s : Nat} (h : s ≤ l.length) :
    (setRange l s v).drop s = v ++ l.drop (s + v.length) := by
  unfold setRange
  rw [List.append_assoc, List.drop_left' (by simp; omega)]

theorem dropHigh_setRange {l v : List Nat} {s : Nat}
    (h : s + v.length ≤ l.length) :
    (setRange l s v).drop (s + v.length) = l.drop (s + v.length) := by
  unfold setRange
  rw [List.drop_left' (by simp; omega)]

theorem setRange_length {l v : List Nat} {s : Nat}
    (h : s + v.length ≤ l.length) :
    (setRange l s v).length = l.length := by
  simp [setRange]
  omega

theorem byteSlice_setRange_before {l v : List Nat} {a n s : Nat}
    (h1 : a + n ≤ s) (h2 : s ≤ l.length) :
    byteSlice (setRange l s v) a n = byteSlice l a n := by
  rw [← byteSlice_take h1, take_setRange h2, byteSlice_take h1]

theorem byteSlice_setRange_first {l v1 v2 : List Nat} {s : Nat}
    (h : s ≤ l.length) :
    byteSlice (setRange l s (v1 ++ v2)) s v1.length = v1 := by
  unfold byteSlice
  rw [drop_setRange h, List.append_assoc, List.take_left' rfl]

theorem byteSlice_setRange_second {l v1 v2 : List Nat} {s : Nat}
    (h : s ≤ l.length) :
    byteSlice (setRange l s (v1 ++ v2)) (s + v1.length) v2.length = v2 := by
  have hd : (setRange l s (v1 ++ v2)).drop (s + v1.length)
      = v2 ++ l.drop (s + (v1 ++ v2).length) := by
    have h1 : (setRange l s (v1 ++ v2)).drop (s + v1.length)
        = ((setRange l s (v1 ++ v2)).drop s).drop v1.length := by
      rw [List.drop_drop, Nat.add_comm]
    rw [h1, drop_setRange h, List.append_assoc, List.drop_left' rfl]
  unfold byteSlice
  rw [hd, List.take_left' rfl]

theorem get?_setRange_frame {l v : List Nat} {s : Nat}
    (h : s + v.length ≤ l.length) (j : Nat)
    (hj : j < s ∨ s + v.length ≤ j) :
    (setRange l s v).get? j = l.get? j := by
  rcases hj with hj | hj
  · rw [← List.get?_take (l := setRange l s v) (n := s) hj,
        take_setRange (by omega), List.get?_take hj]
  · have hsplit : j = (s + v.length) + (j - (s + v.length)) := by omega
    rw [hsplit, ← List.get?_drop, dropHigh_setRange h, List.get?_drop]

theorem findSegment_aux_keep (off : Nat) (segs : List Segment)
    (acc : Option Segment)
    (h : ∀ s ∈ segs, ¬(s.baseOffset ≤ off ∧ off < s.nextOffset)) :
    segs.foldl
      (fun acc seg =>
        if seg.baseOffset ≤ off ∧ off < seg.nextOffset then some seg else acc)
      acc = acc := by
  induction segs generalizing acc with
  | nil => rfl
  | cons s rest ih =>
    have hs := h s (by simp)
    simp only [List.foldl_cons, if_neg hs]
    exact ih acc (fun t ht => h t (by simp [ht]))

theorem findSegment_none (off : Nat) (segs : List Segment)
    (h : ∀ s ∈ segs, ¬(s.baseOffset ≤ off ∧ off < s.nextOffset)) :
    findSegment segs off = none :=
  findSegment_aux_keep off segs none h

theorem findSegment_aux_cond (off : Nat) (segs : List Segment)
    (acc : Option Segment)
    (hacc : ∀ t, acc = some t → t.baseOffset ≤ off ∧ off < t.nextOffset)
    {s : Segment}
    (h : segs.foldl
      (fun acc seg =>
        if seg.baseOffset ≤ off ∧ off < seg.nextOffset then some seg else acc)
      acc = some s) :
    s.baseOffset ≤ off ∧ off < s.nextOffset := by
  induction segs generalizing acc with
  | nil => exact hacc s h
  | cons t rest ih =>
    simp only [List.foldl_cons] at h
    by_cases hc : t.baseOffset ≤ off ∧ off < t.nextOffset
    · rw [if_pos hc] at h
      exact ih (some t) (fun u hu => by cases hu; exact hc) h
    · rw [if_neg hc] at h
      exact ih acc hacc h

theorem findSegment_some_cond {off : Nat} {segs : List Segment} {s : Segment}
    (h : findSegment segs off = some s) :
    s.baseOffset ≤ off ∧ off < s.nextOffset :=
  findSegment_aux_cond off segs none (fun t ht => by cases ht) h

theorem findSegment_last_match (off : Nat) (pre post : List Segment)
    (act : Segment)
    (hact : act.baseOffset ≤ off ∧ off < act.nextOffset)
    (hpost : ∀ s ∈ post, ¬(s.baseOffset ≤ off ∧ off < s.nextOffset)) :
    findSegment (pre ++ act :: post) off = some act := by
  unfold findSegment
  rw [List.foldl_append]
  simp only [List.foldl_cons, if_pos hact]
  exact findSegment_aux_keep off post (some act) hpost

theorem indexRead_error {i : Index} {z : Int} {e : GoErr}
    (h : i.Read z = .error e) : e = .ioEOF := by
  simp only [Index.Read] at h
  split_ifs at h <;> first
  | (injection h with h; exact h.symm)
  | cases h

theorem storeRead_error {st : Store} {pos : Nat} {e : GoErr}
    (h : st.Read pos = .error e) : e = .ioErr := by
  simp only [Store.Read] at h
  split_ifs at h <;> first
  | (injection h with h; exact h.symm)
  | cases h

theorem segRead_ne_outOfRange (s : Segment) (off x : Nat) :
    s.Read off ≠ .error (.outOfRange x) := by
  intro h
  simp only [Segment.Read] at h
  cases hi : s.index.Read (toInt64 (u64sub off s.baseOffset)) with
  | error e =>
    rw [hi] at h
    injection h with h
    have := indexRead_error hi
    rw [this] at h
    cases h
  | ok p =>
    rw [hi] at h
    cases hs : s.store.Read p.2 with
    | error e =>
      obtain ⟨p1, p2⟩ := p
      simp only [hs] at h
      injection h with h
      have := storeRead_error hs
      rw [this] at h
      cases h
    | ok bytes =>
      obtain ⟨p1, p2⟩ := p
      simp only [hs] at h
      cases hu : protoUnmarshal bytes with
      | none => simp [hu] at h
      | some rec => simp [hu] at h

theorem make_empty_nextOffset (c : Config) (b : Nat) :
    (Segment.make c b [] []).nextOffset = b := rfl

theorem make_empty_baseOffset (c : Config) (b : Nat) :
    (Segment.make c b [] []).baseOffset = b := rfl

theorem storeAppend_envOk (st : Store) (b : List Nat) :
    st.Append b envOk =
      (.ok (b.length + 8, st.size),
       ⟨st.data ++ encU64 b.length ++ b, st.size + (b.length + 8)⟩) := rfl

theorem segAppend_write_ok {s : Segment} {r : Record} {idx' : Index}
    (hW : s.index.Write (u64sub s.nextOffset s.baseOffset % 2 ^ 32)
        s.store.size = .ok idx') :
    s.Append r envOk =
      (.ok s.nextOffset,
       { s with
         store := ⟨s.store.data ++
             encU64 (protoMarshal { r with offset := s.nextOffset }).length ++
             protoMarshal { r with offset := s.nextOffset },
           s.store.size +
             ((protoMarshal { r with offset := s.nextOffset }).length + 8)⟩,
         index := idx',
         nextOffset := s.nextOffset + 1 }) := by
  simp only [Segment.Append, storeAppend_envOk, hW]

theorem segAppend_write_err {s : Segment} {r : Record} {e : GoErr}
    (hW : s.index.Write (u64sub s.nextOffset s.baseOffset % 2 ^ 32)
        s.store.size = .error e) :
    s.Append r envOk =
      (.error e,
       { s with
         store := ⟨s.store.data ++
             encU64 (protoMarshal { r with offset := s.nextOffset }).length ++
             protoMarshal { r with offset := s.nextOffset },
           s.store.size +
             ((protoMarshal { r with offset := s.nextOffset }).length + 8)⟩ }) := by
  simp only [Segment.Append, storeAppend_envOk, hW]

theorem logAppend_step (lg : LogS) (r : Record) (o : Nat)
    (h : (lg.Append r envOk).1 = .ok o) :
    o = lg.active.nextOffset ∧
      (lg.Append r envOk).2.active.nextOffset = o + 1 := by
  cases hW : lg.active.index.Write
      (u64sub lg.active.nextOffset lg.active.baseOffset % 2 ^ 32)
      lg.active.store.size with
  | error e =>
    rw [LogS.Append] at h
    rw [segAppend_write_err hW] at h
    cases h
  | ok idx' =>
    have h1 : (lg.Append r envOk).1 = .ok lg.active.nextOffset := by
      rw [LogS.Append, segAppend_write_ok hW]
      simp only []
      split <;> rfl
    have ho : o = lg.active.nextOffset :=
      Except.ok.inj (h.symm.trans h1)
    have h2 : (lg.Append r envOk).2.active.nextOffset =
        lg.active.nextOffset + 1 := by
      rw [LogS.Append, segAppend_write_ok hW]
      simp only []
      split
      · exact make_empty_nextOffset _ _
      · rfl
    exact ⟨ho, by rw [h2, ho]⟩

theorem appendAll_offsets (rs : List Record) :
    ∀ (lg : LogS) (os : List Nat) (lgf : LogS),
      lg.appendAll rs = some (os, lgf) →
      os = List.range' lg.active.nextOffset rs.length := by
  induction rs with
  | nil =>
    intro lg os lgf h
    simp only [LogS.appendAll, Option.some.injEq, Prod.mk.injEq] at h
    simp [← h.1]
  | cons r rest ih =>
    intro lg os lgf h
    simp only [LogS.appendAll] at h
    cases hA : lg.Append r envOk with
    | mk res lg' =>
      rw [hA] at h
      cases res with
      | error e => simp at h
      | ok o1 =>
        simp only [] at h
        cases hR : lg'.appendAll rest with
        | none => rw [hR] at h; simp at h
        | some p =>
          obtain ⟨os', lg''⟩ := p
          rw [hR] at h
          simp only [Option.some.injEq, Prod.mk.injEq] at h
          obtain ⟨hos, _⟩ := h
          have step := logAppend_step lg r o1 (by rw [hA])
          have hlg' : lg' = (lg.Append r envOk).2 := by rw [hA]
          have hih := ih lg' os' lg'' hR
          rw [← hos, hih, hlg', step.2, ← step.1]
          rfl

/-- Claim C3: for every sequence of successive successful appends to a log
(started on an empty directory), the assigned offsets are consecutive:
each offset is its predecessor plus one, and the first equals the log's
initial offset `config.Segment.InitialOffset` (`List.range'` is exactly that
sequence). -/
theorem C3_monotonic_offsets (c : Config) (rs : List Record) (os : List Nat)
    (h : (LogS.newEmptyDir c).appendOffsets rs = some os) :
    os = List.range' c.initialOffset rs.length := by
  unfold LogS.appendOffsets at h
  cases hA : (LogS.newEmptyDir c).appendAll rs with
  | none => rw [hA] at h; cases h
  | some p =>
    rw [hA] at h
    obtain ⟨os', lgf⟩ := p
    simp only [Option.map_some', Option.some.injEq] at h
    have hoff := appendAll_offsets rs (LogS.newEmptyDir c) os' lgf hA
    rw [← h, hoff]
    rfl

theorem C3_monotonic_offsets_witness :
    (LogS.newEmptyDir ⟨100, 36, 0⟩).appendOffsets [⟨0, [7, 8]⟩, ⟨0, [9]⟩]
      = some (List.range' 0 2) := by
  have h : (LogS.newEmptyDir ⟨100, 36, 0⟩).appendOffsets
      [⟨0, [7, 8]⟩, ⟨0, [9]⟩] = some [0, 1] := by decide
  rw [h, C3_monotonic_offsets ⟨100, 36, 0⟩ [⟨0, [7, 8]⟩, ⟨0, [9]⟩] [0, 1] h]
  rfl

/-- Claim C7: a successful `store.Append b` returns `(8 + len b, pos)` with
`pos` the store's size before the call, extends the data by the frame and
increases `size` by `8 + len b`; if either underlying write fails, `size`
is unchanged. -/
theorem C7_store_append (st : Store) (b : List Nat) (env : WriteEnv) :
    (∀ n p, (st.Append b env).1 = .ok (n, p) →
      n = 8 + b.length ∧ p = st.size ∧
        (st.Append b env).2.size = st.size + (8 + b.length) ∧
        (st.Append b env).2.data = st.data ++ encU64 b.length ++ b) ∧
    (∀ e, (st.Append b env).1 = .error e →
      (st.Append b env).2.size = st.size) := by
  rcases env with ⟨fl, fd⟩
  constructor
  · intro n p hok
    cases fl <;> cases fd <;> simp [Store.Append] at hok ⊢ <;> omega
  · intro e herr
    cases fl <;> cases fd <;> simp [Store.Append] at herr ⊢

theorem C7_store_append_witness :
    (10 = 8 + 2 ∧ 0 = 0 ∧
      (Store.Append ⟨[], 0⟩ [5, 6] envOk).2.size = 0 + (8 + 2) ∧
      (Store.Append ⟨[], 0⟩ [5, 6] envOk).2.data = [] ++ encU64 2 ++ [5, 6]) ∧
    (Store.Append ⟨[], 0⟩ [5, 6] ⟨true, false⟩).2.size = 0 :=
  ⟨(C7_store_append ⟨[], 0⟩ [5, 6] envOk).1 10 0 (by decide),
   (C7_store_append ⟨[], 0⟩ [5, 6] ⟨true, false⟩).2 .ioErr (by decide)⟩

/-- Claim C2: the claimed propagation of a store-append failure does not
happen — when the underlying write inside `store.Append` fails during
`Log.Append` (here on a fresh log, with the length-prefix write failing),
`segment.Append` executes `return 0, nil`, so the log reports a successful
append at offset 0 while nothing was persisted (the store's size is still 0).
This evaluates the embedded code at the failing input. -/
theorem C2_store_error_swallowed :
    ((LogS.newEmptyDir cfgT).Append ⟨0, [1, 2, 3]⟩ ⟨true, false⟩).1
        = .ok 0 ∧
      ((LogS.newEmptyDir cfgT).Append ⟨0, [1, 2, 3]⟩
          ⟨true, false⟩).2.active.store.size = 0 ∧
      ((LogS.newEmptyDir cfgT).Append ⟨0, [1, 2, 3]⟩ ⟨false, true⟩).1
        = .ok 0 := by
  decide

/-- Claim C9: for a log with at least one segment, `HighestOffset` is the
last segment's `nextOffset`, minus one unless that is zero. -/
theorem C9_highest_offset (lg : LogS) (s : Segment)
    (h : lg.segments.getLast? = some s) :
    lg.HighestOffset =
      if s.nextOffset = 0 then some 0 else some (s.nextOffset - 1) := by
  unfold LogS.HighestOffset
  rw [h]

theorem C9_highest_offset_witness :
    lgT.HighestOffset =
      if segB.nextOffset = 0 then some 0 else some (segB.nextOffset - 1) :=
  C9_highest_offset lgT segB (by decide)

theorem findSegment_aux_isSome (off : Nat) (segs : List Segment)
    (acc : Option Segment)
    (h : (∃ s ∈ segs, s.baseOffset ≤ off ∧ off < s.nextOffset) ∨ acc.isSome) :
    (segs.foldl
      (fun acc seg =>
        if seg.baseOffset ≤ off ∧ off < seg.nextOffset then some seg else acc)
      acc).isSome := by
  induction segs generalizing acc with
  | nil =>
    rcases h with ⟨s, hs, _⟩ | h
    · cases hs
    · exact h
  | cons t rest ih =>
    simp only [List.foldl_cons]
    by_cases hc : t.baseOffset ≤ off ∧ off < t.nextOffset
    · rw [if_pos hc]
      exact ih (some t) (Or.inr rfl)
    · rw [if_neg hc]
      apply ih
      rcases h with ⟨s, hs, hcond⟩ | h
      · rcases List.mem_cons.mp hs with rfl | hs
        · exact absurd hcond hc
        · exact Or.inl ⟨s, hs, hcond⟩
      · exact Or.inr h

/-- Claim C5: `Log.Read off` fails with the out-of-range error carrying the
offending offset exactly when no segment satisfies
`baseOffset ≤ off < nextOffset`; consequently, when every segment's
`nextOffset` is at most `hi + 1`, `Read (hi + k)` fails with that error for
every `k ≥ 1`. -/
theorem C5_out_of_range_read (lg : LogS) (off : Nat) :
    (lg.Read off = .error (.outOfRange off) ↔
      ∀ s ∈ lg.segments, ¬(s.baseOffset ≤ off ∧ off < s.nextOffset)) ∧
    (∀ hi k, (∀ s ∈ lg.segments, s.nextOffset ≤ hi + 1) → 1 ≤ k →
      lg.Read (hi + k) = .error (.outOfRange (hi + k))) := by
  have main : ∀ o : Nat,
      (lg.Read o = .error (.outOfRange o) ↔
        ∀ s ∈ lg.segments, ¬(s.baseOffset ≤ o ∧ o < s.nextOffset)) := by
    intro o
    constructor
    · intro h s hs hcond
      have hsome : (findSegment lg.segments o).isSome :=
        findSegment_aux_isSome o lg.segments none (Or.inl ⟨s, hs, hcond⟩)
      obtain ⟨s', hs'⟩ := Option.isSome_iff_exists.mp hsome
      have hcond' := findSegment_some_cond hs'
      rw [LogS.Read, hs'] at h
      simp only [] at h
      rw [if_neg (by omega : ¬s'.nextOffset ≤ o)] at h
      exact segRead_ne_outOfRange s' o o h
    · intro h
      rw [LogS.Read, findSegment_none o lg.segments h]
  refine ⟨main off, ?_⟩
  intro hi k hall hk
  exact (main (hi + k)).mpr (fun s hs hcond => by
    have := hall s hs
    omega)

theorem C5_out_of_range_read_witness :
    lgT.Read (6 + 1) = .error (.outOfRange (6 + 1)) :=
  (C5_out_of_range_read lgT 0).2 6 1 (by decide) (by decide)

/-- Claim C6: `Truncate lowest` removes exactly the segments with
`nextOffset ≤ lowest + 1` (membership characterisation) and retains the rest
in their original order (sublist); afterwards every retained segment has
`nextOffset > lowest + 1`, and reading any offset strictly below each
retained segment's `baseOffset` fails with the out-of-range error. -/
theorem C6_truncate (lg : LogS) (lowest : Nat) :
    ((lg.Truncate lowest).segments.Sublist lg.segments) ∧
    (∀ s ∈ lg.segments,
      s ∈ (lg.Truncate lowest).segments ↔ lowest + 1 < s.nextOffset) ∧
    (∀ s ∈ (lg.Truncate lowest).segments, lowest + 1 < s.nextOffset) ∧
    (∀ o, (∀ s ∈ (lg.Truncate lowest).segments, o < s.baseOffset) →
      (lg.Truncate lowest).Read o = .error (.outOfRange o)) := by
  refine ⟨List.filter_sublist _, ?_, ?_, ?_⟩
  · intro s hs
    simp [LogS.Truncate, List.mem_filter, hs]
  · intro s hs
    simp only [LogS.Truncate, List.mem_filter, decide_eq_true_eq] at hs
    exact hs.2
  · intro o h
    rw [LogS.Read, findSegment_none o _ (fun s hs hcond => by
      have := h s hs
      omega)]

theorem C6_truncate_witness :
    (segA ∈ (lgT.Truncate 2).segments ↔ 2 + 1 < segA.nextOffset) ∧
      (lgT.Truncate 2).Read 1 = .error (.outOfRange 1) :=
  ⟨(C6_truncate lgT 2).2.1 segA (by decide),
   (C6_truncate lgT 2).2.2.2 1 (by decide)⟩

/-- Claim C4 counterexample: the invariant "the active segment reference
equals the last element of the segment list after every public operation"
fails for `Truncate`.  On a fresh log (one empty segment, `nextOffset = 0`),
`Truncate 0` removes every segment, leaving an empty slice, while the
`activeSegment` pointer still refers to the removed segment — so the
invariant holds before and is broken after. -/
theorem C4_active_cex :
    activeIsLast (LogS.newEmptyDir cfgT) ∧
      ¬ activeIsLast ((LogS.newEmptyDir cfgT).Truncate 0) := by
  decide

/-- Claim C4 (amended): the active segment equals the last element after
setup and after every append (in any write environment, including failing
ones), and after any truncation that retains the active segment
(`lowest + 1 < active.nextOffset`); moreover an append never touches any
segment other than the last one (the slice up to the last element is
preserved). -/
theorem C4_active_amended :
    (∀ c : Config, activeIsLast (LogS.newEmptyDir c)) ∧
    (∀ (lg : LogS) (r : Record) (env : WriteEnv),
      activeIsLast lg → activeIsLast (lg.Append r env).2) ∧
    (∀ (lg : LogS) (lowest : Nat), activeIsLast lg →
      lowest + 1 < lg.active.nextOffset → activeIsLast (lg.Truncate lowest)) ∧
    (∀ (lg : LogS) (r : Record) (env : WriteEnv),
      (lg.Append r env).2.segments.take (lg.segments.length - 1)
        = lg.segments.take (lg.segments.length - 1)) := by
  refine ⟨?_, ?_, ?_, ?_⟩
  · intro c
    rfl
  · intro lg r env h
    obtain ⟨xs, hxs⟩ := List.getLast?_eq_some_iff.mp h
    cases hA : lg.active.Append r env with
    | mk res act' =>
      unfold activeIsLast LogS.Append
      rw [hA]
      have hne : ¬(xs ++ [lg.active] = []) := by simp
      simp only [hxs, List.isEmpty_eq_true, List.dropLast_concat, if_neg hne]
      cases res with
      | error e => simp
      | ok o =>
        simp only []
        split <;> simp
  · intro lg lowest h hlt
    obtain ⟨xs, hxs⟩ := List.getLast?_eq_some_iff.mp h
    unfold activeIsLast LogS.Truncate
    simp only [hxs, List.filter_append]
    have hact : List.filter (fun s => decide (lowest + 1 < s.nextOffset))
        [lg.active] = [lg.active] := by
      simp [List.filter, decide_eq_true hlt]
    rw [hact]
    exact List.getLast?_concat _
  · intro lg r env
    cases hA : lg.active.Append r env with
    | mk res act' =>
      unfold LogS.Append
      rw [hA]
      simp only []
      by_cases hnil : lg.segments.isEmpty = true
      · have : lg.segments = [] := by
          simpa [List.isEmpty_eq_true] using hnil
        cases res with
        | error e => simp [this]
        | ok o =>
          simp only [this]
          split <;> simp
      · rw [Bool.not_eq_true] at hnil
        rw [hnil]
        simp only [Bool.false_eq_true, if_false]
        have hlen : lg.segments.length - 1 ≤ lg.segments.dropLast.length := by
          simp
        have hstep : (lg.segments.dropLast ++ [act']).take
            (lg.segments.length - 1) =
            lg.segments.take (lg.segments.length - 1) := by
          rw [List.take_append_of_le_length hlen, List.dropLast_eq_take,
            List.take_take]
          congr 1
          omega
        cases res with
        | error e => simpa using hstep
        | ok o =>
          simp only []
          split
          · rw [List.take_append_of_le_length (by simp [Nat.sub_le])]
            exact hstep
          · exact hstep

theorem C4_active_amended_witness :
    activeIsLast (LogS.newEmptyDir cfgT) ∧
      activeIsLast (lgT.Append ⟨0, [1]⟩ envOk).2 ∧
      activeIsLast (lgT.Truncate 2) ∧
      (lgT.Append ⟨0, [1]⟩ envOk).2.segments.take (lgT.segments.length - 1)
        = lgT.segments.take (lgT.segments.length - 1) :=
  ⟨C4_active_amended.1 cfgT,
   C4_active_amended.2.1 lgT ⟨0, [1]⟩ envOk (by decide),
   C4_active_amended.2.2.1 lgT 2 (by decide) (by decide),
   C4_active_amended.2.2.2 lgT ⟨0, [1]⟩ envOk⟩

/-- Claim C8 counterexample: the two failure modes of `index.Read` do not
carry distinct error kinds.  On an empty index (`size = 0`) and on an
out-of-range entry request (`size = 12`, entry 5) the code returns the very
same `io.EOF` error value, so there is no distinct OutOfRange kind. -/
theorem C8_index_read_cex :
    Index.Read ⟨List.replicate 24 0, 0⟩ (-1) = .error .ioEOF ∧
      Index.Read ⟨List.replicate 24 0, 12⟩ 5 = .error .ioEOF ∧
      Index.Read ⟨List.replicate 24 0, 0⟩ (-1)
        = Index.Read ⟨List.replicate 24 0, 12⟩ 5 := by
  decide

/-- Claim C8 (amended): `index.Read in` fails with `io.EOF` when `size = 0`;
the sentinel `-1` selects entry `size/12 - 1` (whose read succeeds when
`12 ≤ size` and the entry count fits `uint32`, and hits the wrapped guard,
failing with `io.EOF`, when `0 < size < 12`); an argument `0 ≤ in < 2^32`
selects entry `in`, failing with the same `io.EOF` error kind — not a
distinct one — when `size < in*12 + 12` and otherwise returning the decoded
`(relOff, pos)` pair of that entry. -/
theorem C8_index_read_amended (i : Index) (z : Int) :
    (i.size = 0 → i.Read z = .error .ioEOF) ∧
    (12 ≤ i.size → i.size / 12 ≤ 2 ^ 32 → z = -1 →
      i.Read z = .ok (entryPair i (i.size / 12 - 1))) ∧
    (0 < i.size → i.size < 12 → z = -1 → i.Read z = .error .ioEOF) ∧
    (∀ k : Nat, z = k → k < 2 ^ 32 → i.size ≠ 0 →
      ((i.size < k * 12 + 12 → i.Read z = .error .ioEOF) ∧
       (k * 12 + 12 ≤ i.size → i.Read z = .ok (entryPair i k)))) := by
  refine ⟨?_, ?_, ?_, ?_⟩
  · intro h0
    simp only [Index.Read, if_pos h0]
  · intro h12 h32 hz
    subst hz
    simp only [Index.Read, if_neg (by omega : ¬i.size = 0), if_pos rfl,
      if_true]
    have hout : u64sub (i.size / 12) 1 % 2 ^ 32 = i.size / 12 - 1 := by
      rw [u64sub_eq (by omega) (by omega)]
      omega
    rw [hout, if_neg (by omega : ¬i.size < (i.size / 12 - 1) * 12 + 12)]
    rfl
  · intro h0 hlt hz
    subst hz
    simp only [Index.Read, if_neg (by omega : ¬i.size = 0), if_pos rfl,
      if_true]
    have hdiv : i.size / 12 = 0 := by omega
    have hout : u64sub (i.size / 12) 1 % 2 ^ 32 = 2 ^ 32 - 1 := by
      rw [hdiv]
      decide
    rw [hout, if_pos (by omega)]
  · intro k hz h32 h0
    subst hz
    have hk : ((k : Int) % 2 ^ 32).toNat = k := by omega
    have hs : ¬((k : Int) = -1) := by omega
    constructor
    · intro hlt
      simp only [Index.Read, if_neg h0, if_neg hs, hk]
      rw [if_pos hlt]
    · intro hle
      simp only [Index.Read, if_neg h0, if_neg hs, hk]
      rw [if_neg (by omega)]
      rfl

theorem C8_index_read_witness :
    Index.Read idxW (-1) = .ok (entryPair idxW 1) ∧
      Index.Read idxW 0 = .ok (entryPair idxW 0) ∧
      Index.Read idxW 9 = .error .ioEOF :=
  ⟨by
    have h := (C8_index_read_amended idxW (-1)).2.1 (by decide) (by decide) rfl
    simpa using h,
   ((C8_index_read_amended idxW 0).2.2.2 0 rfl (by decide) (by decide)).2
     (by decide),
   ((C8_index_read_amended idxW 9).2.2.2 9 rfl (by decide) (by decide)).1
     (by decide)⟩

/-- Claim C10: on an index whose `size` is a multiple of 12 and whose mapped
region has room for one more entry, a successful `index.Write relOff pos`
advances `size` by 12, modifies only the bytes in `[size, size + 12)` (the
map's length and every byte outside that window are unchanged), and every
previously readable entry `k < size / 12` reads back exactly as before. -/
theorem C10_index_write_frame (i : Index) (off pos : Nat) (idx' : Index)
    (hdvd : 12 ∣ i.size) (hcap : i.size + 12 ≤ i.mmap.length)
    (hW : i.Write off pos = .ok idx') :
    idx'.size = i.size + 12 ∧
    idx'.mmap.length = i.mmap.length ∧
    (∀ j, j < i.size ∨ i.size + 12 ≤ j → idx'.mmap.get? j = i.mmap.get? j) ∧
    (∀ k : Nat, k < i.size / 12 → idx'.Read k = i.Read k) := by
  rw [Index.Write, if_neg (by omega)] at hW
  injection hW with hW
  subst hW
  have hvlen : (encU32 off ++ encU64 pos).length = 12 := by
    simp [encU32, encU64]
  refine ⟨rfl, ?_, ?_, ?_⟩
  · rw [setRange_length (by omega)]
  · intro j hj
    exact get?_setRange_frame (by omega) j (by omega)
  · intro k hk
    have h12 : 12 ≤ i.size := by
      rcases hdvd with ⟨c, hc⟩
      omega
    have hk2 : (k % 2 ^ 32) * 12 + 12 ≤ i.size := by
      have hmle : k % 2 ^ 32 ≤ k := Nat.mod_le k (2 ^ 32)
      have : (k + 1) * 12 ≤ (i.size / 12) * 12 := by
        apply Nat.mul_le_mul_right
        omega
      have hds : (i.size / 12) * 12 ≤ i.size := Nat.div_mul_le_self _ _
      omega
    have hknat : ((k : Int) % 2 ^ 32).toNat = k % 2 ^ 32 := by omega
    have hs : ¬((k : Int) = -1) := by omega
    simp only [Index.Read, if_neg (by omega : ¬i.size = 0),
      if_neg (by omega : ¬i.size + 12 = 0), if_neg hs, hknat]
    rw [if_neg (by omega), if_neg (by omega)]
    have h4 : byteSlice (setRange i.mmap i.size (encU32 off ++ encU64 pos))
        (k % 2 ^ 32 * 12) 4 = byteSlice i.mmap (k % 2 ^ 32 * 12) 4 :=
      byteSlice_setRange_before (by omega) (by omega)
    have h8 : byteSlice (setRange i.mmap i.size (encU32 off ++ encU64 pos))
        (k % 2 ^ 32 * 12 + 4) 8 = byteSlice i.mmap (k % 2 ^ 32 * 12 + 4) 8 :=
      byteSlice_setRange_before (by omega) (by omega)
    rw [h4, h8]

theorem C10_index_write_frame_witness :
    idxA'.size = idxA.size + 12 ∧
      idxA'.mmap.length = idxA.mmap.length ∧
      idxA'.mmap.get? 3 = idxA.mmap.get? 3 ∧
      idxA'.Read 0 = idxA.Read 0 :=
  ⟨(C10_index_write_frame idxA 7 9 idxA' (by decide) (by decide) (by decide)).1,
   (C10_index_write_frame idxA 7 9 idxA' (by decide) (by decide) (by decide)).2.1,
   (C10_index_write_frame idxA 7 9 idxA' (by decide) (by decide)
     (by decide)).2.2.1 3 (by decide),
   (C10_index_write_frame idxA 7 9 idxA' (by decide) (by decide)
     (by decide)).2.2.2 0 (by decide)⟩

theorem storeRead_frame (data m : List Nat) (sz : Nat)
    (hm : m.length < 2 ^ 64) :
    Store.Read ⟨data ++ encU64 m.length ++ m, sz⟩ data.length = .ok m := by
  simp only [Store.Read]
  have hlen : (data ++ encU64 m.length ++ m).length
      = data.length + 8 + m.length := by
    simp [encU64]
    omega
  have hsl : byteSlice (data ++ encU64 m.length ++ m) data.length 8
      = encU64 m.length := by
    unfold byteSlice
    rw [List.append_assoc, List.drop_left' rfl,
      List.take_left' (encU64_length _)]
  rw [if_neg (by omega), hsl, decBE_encU64, Nat.mod_eq_of_lt hm,
    if_neg (by omega)]
  have hsl2 : byteSlice (data ++ encU64 m.length ++ m) (data.length + 8)
      m.length = m := by
    unfold byteSlice
    rw [List.drop_left' (by simp [encU64])]
    exact List.take_length m
  rw [hsl2]

theorem indexRead_after_write (i : Index) (rel spos k : Nat)
    (hk : k < 2 ^ 32) (hrel : rel < 2 ^ 32) (hspos : spos < 2 ^ 64)
    (hsz : i.size = 12 * k)
    (hcap : i.size + 12 ≤ i.mmap.length) :
    Index.Read
      ⟨setRange i.mmap i.size (encU32 rel ++ encU64 spos), i.size + 12⟩
      ((k : Nat) : Int) = .ok (rel, spos) := by
  simp only [Index.Read]
  have hknat : (((k : Nat) : Int) % 2 ^ 32).toNat = k := by omega
  rw [if_neg (by omega : ¬i.size + 12 = 0),
    if_neg (by omega : ¬((k : Nat) : Int) = -1), hknat,
    if_neg (by omega : ¬i.size + 12 < k * 12 + 12)]
  have hstart : k * 12 = i.size := by omega
  have h4 : byteSlice (setRange i.mmap i.size (encU32 rel ++ encU64 spos))
      (k * 12) 4 = encU32 rel := by
    rw [hstart, show (4 : Nat) = (encU32 rel).length from (encU32_length rel).symm]
    exact byteSlice_setRange_first (by omega)
  have h8 : byteSlice (setRange i.mmap i.size (encU32 rel ++ encU64 spos))
      (k * 12 + 4) 8 = encU64 spos := by
    rw [hstart, show (4 : Nat) = (encU32 rel).length from (encU32_length rel).symm,
      show (8 : Nat) = (encU64 spos).length from (encU64_length spos).symm]
    exact byteSlice_setRange_second (by omega)
  rw [h4, h8, decBE_encU32, decBE_encU64, Nat.mod_eq_of_lt hrel,
    Nat.mod_eq_of_lt hspos]

theorem segment_roundtrip (s : Segment) (r : Record) (idx' : Index)
    (hwf : SegWF s) (hlen : r.value.length + 8 < 2 ^ 64)
    (hW : s.index.Write (u64sub s.nextOffset s.baseOffset % 2 ^ 32)
        s.store.size = .ok idx') :
    Segment.Read
      { s with
        store := ⟨s.store.data ++
            encU64 (protoMarshal { r with offset := s.nextOffset }).length ++
            protoMarshal { r with offset := s.nextOffset },
          s.store.size +
            ((protoMarshal { r with offset := s.nextOffset }).length + 8)⟩,
        index := idx',
        nextOffset := s.nextOffset + 1 } s.nextOffset
      = .ok ⟨s.nextOffset, r.value⟩ := by
  obtain ⟨hss, hisz, hbn, hcnt, hn64, hd64⟩ := hwf
  rw [Index.Write] at hW
  by_cases hg : s.index.mmap.length < s.index.size + 12
  · rw [if_pos hg] at hW
    cases hW
  · rw [if_neg hg] at hW
    injection hW with hW
    subst hW
    have hrel : u64sub s.nextOffset s.baseOffset % 2 ^ 32
        = s.nextOffset - s.baseOffset := by
      rw [u64sub_eq hbn hn64]
      omega
    have htoi : toInt64 (u64sub s.nextOffset s.baseOffset)
        = ((s.nextOffset - s.baseOffset : Nat) : Int) := by
      rw [u64sub_eq hbn hn64]
      exact toInt64_small (by omega)
    simp only [Segment.Read]
    rw [htoi, hrel]
    have hird := indexRead_after_write s.index
      (s.nextOffset - s.baseOffset) s.store.size
      (s.nextOffset - s.baseOffset) hcnt hcnt (by omega) (by omega)
      (by omega)
    rw [hird]
    simp only []
    have hsrd := storeRead_frame s.store.data
      (protoMarshal { r with offset := s.nextOffset })
      (s.store.data.length +
        ((protoMarshal { r with offset := s.nextOffset }).length + 8))
      (by simp only [protoMarshal_length]; omega)
    rw [hss, hsrd]
    simp only []
    rw [protoUnmarshal_marshal _ (by exact hn64)]

theorem logRead_at_segment (lg' : LogS) (act : Segment)
    (pre post : List Segment) (o : Nat)
    (hsegs : lg'.segments = pre ++ act :: post)
    (hbase : act.baseOffset ≤ o) (hnext : o < act.nextOffset)
    (hpost : ∀ s ∈ post, ¬(s.baseOffset ≤ o ∧ o < s.nextOffset)) :
    lg'.Read o = act.Read o := by
  rw [LogS.Read, hsegs,
    findSegment_last_match o pre post act ⟨hbase, hnext⟩ hpost]
  simp only []
  rw [if_neg (by omega)]

/-- Claim C1: round-trip.  For every log state with a well-formed active
segment and a non-empty segment slice, a successful `Append r` returning
offset `o` (in the failure-free environment) is followed by `Read o`
returning a record whose payload bytes equal `r`'s payload bytes. -/
theorem C1_append_read_roundtrip (lg : LogS) (r : Record) (o : Nat)
    (hwf : SegWF lg.active) (hne : lg.segments ≠ [])
    (hlen : r.value.length + 8 < 2 ^ 64)
    (h : (lg.Append r envOk).1 = .ok o) :
    ∃ rec, (lg.Append r envOk).2.Read o = .ok rec ∧ rec.value = r.value := by
  have hbn := hwf.2.2.1
  cases hW : lg.active.index.Write
      (u64sub lg.active.nextOffset lg.active.baseOffset % 2 ^ 32)
      lg.active.store.size with
  | error e =>
    rw [LogS.Append, segAppend_write_err hW] at h
    cases h
  | ok idx' =>
    have ho : o = lg.active.nextOffset := (logAppend_step lg r o h).1
    have hread := segment_roundtrip lg.active r idx' hwf hlen hW
    refine ⟨⟨lg.active.nextOffset, r.value⟩, ?_, rfl⟩
    rw [ho, LogS.Append, segAppend_write_ok hW]
    simp only []
    have hie : lg.segments.isEmpty = false := by
      simp only [List.isEmpty_eq_false]
      exact hne
    rw [hie]
    simp only [Bool.false_eq_true, if_false]
    split
    · refine (logRead_at_segment _ _ lg.segments.dropLast
        [Segment.make lg.config (lg.active.nextOffset + 1) [] []]
        lg.active.nextOffset ?_ ?_ ?_ ?_).trans hread
      · simp
      · exact hbn
      · exact Nat.lt_succ_self _
      · intro s hs
        simp only [List.mem_singleton] at hs
        subst hs
        rw [make_empty_baseOffset]
        omega
    · refine (logRead_at_segment _ _ lg.segments.dropLast []
        lg.active.nextOffset ?_ ?_ ?_ ?_).trans hread
      · simp
      · exact hbn
      · exact Nat.lt_succ_self _
      · intro s hs
        cases hs

theorem C1_append_read_roundtrip_witness :
    ∃ rec, ((LogS.newEmptyDir ⟨100, 36, 0⟩).Append ⟨0, [7, 8]⟩ envOk).2.Read 0
        = .ok rec ∧ rec.value = [7, 8] :=
  C1_append_read_roundtrip (LogS.newEmptyDir ⟨100, 36, 0⟩) ⟨0, [7, 8]⟩ 0
    (by decide) (by decide) (by decide) (by decide)
